import Mathlib

/-!
Shallow embedding of the AAAPackageDev settings knowledge base
(`settings.py`, class `KnownSettings` and helper `decode_value`) and of the
scope-name completion walk (`plugins/syntax_dev/completions.py`,
`SyntaxDefCompletionsListener._complete_scope` / `_complete_base_scope`).

Python strings are modelled as lists of characters (`PyStr`).  Host-editor
APIs (`sublime.find_resources`, `sublime.load_resource`,
`sublime.decode_value`) and the Python numeric parsers `int()` / `float()`
are taken as parameters: a `load` failure or a decode failure is the
corresponding `Option` being `none` (the Python code raises there and the
caller catches `Exception`).
-/

/-- Python strings, modelled as lists of characters. -/
abbrev PyStr := List Char

/-- ASCII whitespace stripped by Python `str.strip()` (space, tab, newline,
carriage return, vertical tab, form feed). -/
def pyWS : List Char := [' ', '\t', '\n', '\r', Char.ofNat 11, Char.ofNat 12]

/-- Python `str.lstrip(cs)`: drop leading characters belonging to `cs`. -/
def pyLStripSet (cs : List Char) (l : PyStr) : PyStr :=
  l.dropWhile (fun c => cs.contains c)

/-- Python `str.rstrip(cs)`: drop trailing characters belonging to `cs`. -/
def pyRStripSet (cs : List Char) (l : PyStr) : PyStr :=
  (l.reverse.dropWhile (fun c => cs.contains c)).reverse

/-- Python `str.strip()` with default whitespace. -/
def pyStrip (l : PyStr) : PyStr := pyRStripSet pyWS (pyLStripSet pyWS l)

/-- Python `str.startswith(p)`. -/
def pyStartsWith (p l : PyStr) : Bool := p.isPrefixOf l

/-- Python `str.endswith(p)`. -/
def pyEndsWith (p l : PyStr) : Bool := p.isSuffixOf l

/-- Python `str.lower()` (ASCII). -/
def pyLower (l : PyStr) : PyStr := l.map Char.toLower

/-- Python `'\n'.join(lines)`. -/
def joinNL : List PyStr → PyStr
  | [] => []
  | [l] => l
  | l :: ls => l ++ '\n' :: joinNL ls

/-- Python `'.'.join(tokens)`. -/
def joinDot : List PyStr → PyStr
  | [] => []
  | [l] => l
  | l :: ls => l ++ '.' :: joinDot ls

/-- Python `str.split(sep)` for a single-character separator: always returns
at least one (possibly empty) piece. -/
def pySplit (c : Char) : PyStr → List PyStr
  | [] => [[]]
  | x :: xs =>
    match pySplit c xs with
    | r :: rs => if x = c then [] :: r :: rs else (x :: r) :: rs
    | [] => [[]]

/-- The part of `s` after the last occurrence of `c`
(`s.rpartition(c)[2]`); the whole string when `c` does not occur. -/
def rpartAfter (c : Char) (l : PyStr) : PyStr :=
  (l.reverse.takeWhile (fun d => d ≠ c)).reverse

/-- Association-list lookup, first binding wins (Python `dict` lookup for the
insertion-ordered tables built below). -/
def lookupA {β : Type} (l : List (PyStr × β)) (k : PyStr) : Option β :=
  (l.find? (fun p => p.1 = k)).map (fun p => p.2)

/-- Variant of `Option.orElse` without a thunk, for stating first-wins lemmas. -/
def optOr {α : Type} : Option α → Option α → Option α
  | some a, _ => some a
  | none, b => b

/-- The double-quote character (written by code to avoid confusing
string-literal delimiters). -/
def quoteChar : Char := Char.ofNat 34

/-- The backtick character. -/
def btChar : Char := Char.ofNat 96

/-- The backslash character. -/
def bsChar : Char := Char.ofNat 92

/-- JSON-like values produced by the host `sublime.decode_value` and handled
by the completion code.  Floats carry their literal representation: the code
never computes with them, it only passes them through. -/
inductive JValue where
  | null
  | bool (b : Bool)
  | int (n : Int)
  | float (r : PyStr)
  | str (s : PyStr)
  | list (xs : List JValue)
  | obj (kvs : List (PyStr × JValue))

/-! ## `KnownSettings._parse_settings`: the line scanner -/

/-- The marker `"*/"`. -/
def starSlash : PyStr := ['*', '/']
/-- The marker `"/*"`. -/
def slashStar : PyStr := ['/', '*']
/-- The marker `"//"`. -/
def slashSlash : PyStr := ['/', '/']
/-- The marker `"* "`. -/
def starSpace : PyStr := ['*', ' ']
/-- characters removed by `line.rstrip("*/ \t")` -/
def blockEndStrip : List Char := ['*', '/', ' ', '\t']

/-- Building block of `textwrap.dedent`: the indentation character class. -/
def indentChars : List Char := [' ', '\t']

/-- A line consisting solely of (one or more) spaces/tabs
(`textwrap._whitespace_only_re`). -/
def wsOnly (l : PyStr) : Bool := !l.isEmpty && l.all (fun c => indentChars.contains c)

/-- Leading space/tab run of a line (`textwrap._leading_whitespace_re`). -/
def leadingIndent (l : PyStr) : PyStr := l.takeWhile (fun c => indentChars.contains c)

/-- Longest common prefix of two character lists (how `textwrap.dedent`
combines per-line indents into the common margin). -/
def lcp : PyStr → PyStr → PyStr
  | a :: as_, b :: bs => if a = b then a :: lcp as_ bs else []
  | _, _ => []

/-- Model of `textwrap.dedent`, working line-wise: whitespace-only lines are
normalized to empty, the common margin of the remaining lines is removed. -/
def dedentLines (ls : List PyStr) : List PyStr :=
  let cleaned := ls.map (fun l => if wsOnly l then [] else l)
  match (cleaned.filter (fun l => !l.isEmpty)).map leadingIndent with
  | [] => cleaned
  | m :: ms =>
    let margin := ms.foldl lcp m
    if margin.isEmpty then cleaned
    else cleaned.map (fun l => if margin.isPrefixOf l then l.drop margin.length else l)

/-- The text `textwrap.dedent('\n'.join(comment))` as stored into `self.comments`. -/
def dedentJoin (ls : List PyStr) : PyStr := joinNL (dedentLines ls)

/-- Attempt to finish the key regex: match the closing `":` (quote then
colon) at the current position, yielding an empty remaining capture. -/
def tryKeyEnd (cs : PyStr) : Option PyStr :=
  match cs with
  | c1 :: c2 :: _ => if c1 = quoteChar ∧ c2 = ':' then some [] else none
  | _ => none

/-- Backtracking matcher for the body of `re.match(r'"((?:[^"]|\\.)*)":', s)`
after the opening quote: greedily repeat (non-quote char | backslash + any
char), then require the closing quote and colon; returns the capture group. -/
def matchKeyBody : PyStr → Option PyStr
  | [] => none
  | c :: rest =>
    if c = quoteChar then
      tryKeyEnd (c :: rest)
    else
      match matchKeyBody rest with
      | some cap => some (c :: cap)
      | none =>
        if c = bsChar then
          match rest with
          | d :: rest2 =>
            match matchKeyBody rest2 with
            | some cap => some (c :: d :: cap)
            | none => tryKeyEnd (c :: rest)
          | [] => tryKeyEnd (c :: rest)
        else tryKeyEnd (c :: rest)

/-- Model of `re.match(r'"((?:[^"]|\\.)*)":', stripped)`: anchored at the start of the
stripped line, requires the opening quote first. -/
def keyOfStripped (stripped : PyStr) : Option PyStr :=
  match stripped with
  | c :: rest => if c = quoteChar then matchKeyBody rest else none
  | [] => none

/-- The mutable state of one `_parse_settings` run: `content`, `comment` and
`in_comment` are the local variables of the loop, `comments` is
`self.comments` (shared across resources). -/
structure PState where
  content : List PyStr
  comment : List PyStr
  inComment : Bool
  comments : List (PyStr × PyStr)
deriving DecidableEq

/-- One iteration of the `for line in lines` loop of
`KnownSettings._parse_settings`. -/
def parseLine (st : PState) (line : PyStr) : PState :=
  let stripped := pyStrip line
  if st.inComment then
    if pyEndsWith starSlash stripped then
      let line2 := pyRStripSet blockEndStrip line
      { st with inComment := false,
                comment := if !line2.isEmpty then st.comment ++ [line2] else st.comment }
    else if pyStartsWith starSpace stripped then
      { st with comment := st.comment ++ [stripped.drop 2] }
    else
      { st with comment := st.comment ++ [line] }
  else if stripped.isEmpty then st
  else if pyStartsWith slashStar stripped then
    let s2 := pyLStripSet ['*'] (stripped.drop 2)
    { st with inComment := true,
              comment := if !s2.isEmpty then st.comment ++ [s2] else st.comment }
  else if pyStartsWith slashSlash stripped then
    let t := stripped.drop 2
    { st with comment := if t.isEmpty || !pyEndsWith slashSlash t
                         then st.comment ++ [t] else st.comment }
  else
    let st1 := { st with content := st.content ++ [line] }
    if st.comment.isEmpty then st1
    else
      match keyOfStripped stripped with
      | none => st1
      | some key =>
        { st1 with
          comment := [],
          comments := if lookupA st.comments key = none
                      then st.comments ++ [(key, dedentJoin st.comment)]
                      else st.comments }

/-- The whole `for line in lines` loop. -/
def parseMany (st : PState) (lines : List PyStr) : PState :=
  lines.foldl parseLine st

/-- Fresh local parser state at the start of a `_parse_settings` call, with the
shared `self.comments` table. -/
def initPState (comments : List (PyStr × PyStr)) : PState :=
  ⟨[], [], false, comments⟩


/-! ## `KnownSettings._load_settings`: scanning and merging resources -/

/-- The tables `self.defaults` and `self.comments`, the two tables of `KnownSettings`. -/
structure KS where
  defaults : List (PyStr × JValue)
  comments : List (PyStr × PyStr)

/-- The empty tables set by `trigger_settings_reload` before a scan. -/
def emptyKS : KS := ⟨[], []⟩

/-- The ignored path fragments of `_load_settings`. -/
def userPat : PyStr := "/User/".toList
/-- The second ignored path fragment. -/
def prefEdPat : PyStr := "/Preferences Editor/".toList

/-- Python substring containment `p in r`. -/
def pyContains (p r : PyStr) : Bool := decide (p <:+: r)

/-- The test `any(ignored in resource for ignored in ignored_patterns)`. -/
def anyIgnored (r : PyStr) : Bool :=
  pyContains userPat r || pyContains prefEdPat r

/-- Python `dict.setdefault(key, value)`: insert (at the end) only when the key is
absent. -/
def setdefault (d : List (PyStr × JValue)) (k : PyStr) (v : JValue) :
    List (PyStr × JValue) :=
  if (lookupA d k).isSome then d else d ++ [(k, v)]

/-- The merge loop `for key, value in ...: self.defaults.setdefault(key, value)`. -/
def mergeItems (d : List (PyStr × JValue)) (items : List (PyStr × JValue)) :
    List (PyStr × JValue) :=
  items.foldl (fun d kv => setdefault d kv.1 kv.2) d

/-- One iteration of the `for resource in resources` loop of
`_load_settings`.  `loadRes r = none` models `sublime.load_resource` raising;
`decode s = none` models `sublime.decode_value` raising; both are caught by
the `except Exception` handler, which only logs.  The second component
records which resources the loop actually attempted to parse (those that
passed the ignore filter). -/
def loadStep (loadRes : PyStr → Option (List PyStr))
    (decode : PyStr → Option (List (PyStr × JValue)))
    (p : KS × List PyStr) (r : PyStr) : KS × List PyStr :=
  if anyIgnored r then p
  else
    let trace := p.2 ++ [r]
    match loadRes r with
    | none => (p.1, trace)
    | some lines =>
      let st := parseMany (initPState p.1.comments) lines
      match decode (joinNL st.content) with
      | none => (⟨p.1.defaults, st.comments⟩, trace)
      | some items => (⟨mergeItems p.1.defaults items, st.comments⟩, trace)

/-- The suffix `"-hints"`. -/
def hintsSfx : PyStr := "-hints".toList
/-- The constant `PREF_FILE`. -/
def prefFile : PyStr := "Preferences.sublime-settings".toList
/-- The extension `".sublime-syntax"`. -/
def subSynExt : PyStr := ".sublime-syntax".toList
/-- The extension `".tmLanguage"`. -/
def tmLangExt : PyStr := ".tmLanguage".toList

/-- Python `str.rfind(c)`: index of the last occurrence, `-1` when absent. -/
def pyRFind (c : Char) (l : PyStr) : Int :=
  (l.foldl (fun (acc : Int × Int) x =>
    (if x = c then acc.2 else acc.1, acc.2 + 1)) (-1, 0)).1

/-- Python `os.path.splitext(p)[0]` (posix separator): cut at the last dot provided
it lies after the last slash and the base name before it is not all dots. -/
def splitextRoot (p : PyStr) : PyStr :=
  let sepIdx := pyRFind '/' p
  let dotIdx := pyRFind '.' p
  if sepIdx < dotIdx then
    let base := (p.take dotIdx.toNat).drop (sepIdx + 1).toNat
    if base.any (fun c => c ≠ '.') then p.take dotIdx.toNat else p
  else p

/-- Model of `KnownSettings._is_syntax_specific`: a syntax definition with the same
base name exists (for either syntax file extension). -/
def isSyntaxSpec (findRes : PyStr → List PyStr) (filename : PyStr) : Bool :=
  let stem := splitextRoot filename
  [subSynExt, tmLangExt].any (fun ext => !(findRes (stem ++ ext)).isEmpty)

/-- The resource list assembled by `_load_settings` before the loop:
same-named resources, the `-hints` variant and, for syntax-specific files,
the general preferences (and their hints). -/
def scanResources (findRes : PyStr → List PyStr) (filename : PyStr) : List PyStr :=
  let rs := findRes filename ++ findRes (filename ++ hintsSfx)
  if isSyntaxSpec findRes filename then
    rs ++ (findRes prefFile ++ findRes (prefFile ++ hintsSfx))
  else rs

/-- The whole `_load_settings` scan: fold the per-resource step over the
assembled resource list, starting from the freshly reset tables. -/
def loadSettings (findRes : PyStr → List PyStr)
    (loadRes : PyStr → Option (List PyStr))
    (decode : PyStr → Option (List (PyStr × JValue)))
    (filename : PyStr) : KS × List PyStr :=
  (scanResources findRes filename).foldl (loadStep loadRes decode) (emptyKS, [])

/-- The JSON items one resource contributes: `none` when loading raises or the
comment-stripped content fails to decode.  (The scanner's `content` does not
depend on the shared `comments` table, so the clean state is used.) -/
def resourceItems (loadRes : PyStr → Option (List PyStr))
    (decode : PyStr → Option (List (PyStr × JValue)))
    (r : PyStr) : Option (List (PyStr × JValue)) :=
  match loadRes r with
  | none => none
  | some lines => decode (joinNL (parseMany (initPState []) lines).content)

/-- Spec-side description of the merged table: the concatenation, in scan
order, of the items of every non-ignored, successfully parsed resource; a
key's value is its first occurrence in this list. -/
def successItems (loadRes : PyStr → Option (List PyStr))
    (decode : PyStr → Option (List (PyStr × JValue)))
    (rs : List PyStr) : List (PyStr × JValue) :=
  rs.flatMap (fun r =>
    if anyIgnored r then [] else (resourceItems loadRes decode r).getD [])

/-- Modelled from the spec: the list of resources the claim says are scanned
for a settings file name — all resources with that name, the `-hints`
variant, the general preferences and their hints when the file is
syntax-specific, minus every path containing an ignored fragment. -/
def specScanList (findRes : PyStr → List PyStr) (filename : PyStr) : List PyStr :=
  (findRes filename ++ findRes (filename ++ hintsSfx) ++
    (if isSyntaxSpec findRes filename then
      findRes prefFile ++ findRes (prefFile ++ hintsSfx)
    else [])).filter (fun r => !anyIgnored r)

/-! ## `decode_value` and the value-completion generators -/

/-- The literal `"true"`. -/
def trueLit : PyStr := "true".toList
/-- The literal `"false"`. -/
def falseLit : PyStr := "false".toList

/-- Model of `decode_value` from `settings.py`: unrestrictive booleans first, then
`int(string)` (its `ValueError` is caught), then `float(string)` (its
`ValueError` propagates, modelled as `none`).  `intP` and `floatP` are the
Python numeric parsers, taken as parameters. -/
def pyDecodeValue (intP : PyStr → Option Int) (floatP : PyStr → Option PyStr)
    (s : PyStr) : Option JValue :=
  if pyLower s = trueLit then some (.bool true)
  else if pyLower s = falseLit then some (.bool false)
  else
    match intP s with
    | some n => some (.int n)
    | none => (floatP s).map .float

/-- Non-overlapping scan for `delim`-wrapped runs of characters accepted by
`ok` (`re.finditer` for the patterns of `_completions_from_comment`): the
first argument holds the capture in progress (reversed) after an opening
delimiter, or `none` outside a candidate match. -/
def scanDelim (delim : Char) (ok : Char → Bool) :
    Option PyStr → PyStr → List PyStr
  | _, [] => []
  | none, c :: rest =>
    if c = delim then scanDelim delim ok (some []) rest
    else scanDelim delim ok none rest
  | some acc, c :: rest =>
    if c = delim then
      if acc.isEmpty then scanDelim delim ok (some []) rest
      else acc.reverse :: scanDelim delim ok none rest
    else if ok c then scanDelim delim ok (some (c :: acc)) rest
    else scanDelim delim ok none rest

/-- All captures of ``re.finditer(r"`([^`\n]+)`", comment)``. -/
def backtickMatches (s : PyStr) : List PyStr :=
  scanDelim btChar (fun d => d ≠ '\n') none s

/-- A word-or-dot character, the class `[\.\w]` (ASCII). -/
def wordChar (c : Char) : Bool := c.isAlphanum || c = '_' || c = '.'

/-- All captures of `re.finditer(r'"([\.\w]+)"', comment)`. -/
def quotedMatches (s : PyStr) : List PyStr :=
  scanDelim quoteChar wordChar none s

/-- The values collected from backtick-quoted snippets: each capture is fed
to `sublime.decode_value` (parameter `dec`; `none` models `ValueError`, in
which case the raw string is kept); decoded lists contribute their items. -/
def backtickValues (dec : PyStr → Option JValue) (comment : PyStr) :
    List JValue :=
  (backtickMatches comment).flatMap (fun cap =>
    match dec cap with
    | some (JValue.list xs) => xs
    | some v => [v]
    | none => [.str cap])

/-- The values collected from double-quoted bare tokens: each capture is fed
to `decode_value`, whose `ValueError` leaves the raw string. -/
def quotedValues (intP : PyStr → Option Int) (floatP : PyStr → Option PyStr)
    (comment : PyStr) : List JValue :=
  (quotedMatches comment).map (fun cap =>
    match pyDecodeValue intP floatP cap with
    | some v => v
    | none => .str cap)

/-- Model of `KnownSettings._completions_from_comment`: `none` when the key has no (or
an empty) comment; otherwise the values harvested from backticks and quoted
tokens.  (`format_completion_item` pairs each value with a display label;
the label belongs to the host completion-list structure and only the value
is modelled.) -/
def completionsFromComment (dec : PyStr → Option JValue)
    (intP : PyStr → Option Int) (floatP : PyStr → Option PyStr)
    (comments : List (PyStr × PyStr)) (key : PyStr) : Option (List JValue) :=
  match lookupA comments key with
  | none => none
  | some c =>
    if c.isEmpty then none
    else some (backtickValues dec c ++ quotedValues intP floatP c)

/-- Model of `KnownSettings._completions_from_default`: `none` when there is no (or a
null) default; booleans suggest both literals, lists their members, anything
else itself. -/
def completionsFromDefault (defaults : List (PyStr × JValue)) (key : PyStr) :
    Option (List JValue) :=
  match lookupA defaults key with
  | none => none
  | some JValue.null => none
  | some (JValue.bool _) => some [.bool false, .bool true]
  | some (JValue.list xs) => some xs
  | some v => some [v]

/-- The key `"color_scheme"`. -/
def csKey : PyStr := "color_scheme".toList
/-- The key `"theme"`. -/
def themeKey : PyStr := "theme".toList

/-- Model of `KnownSettings._value_completions_for`: the special-cased keys use the
scheme/theme enumerations (parameters); otherwise comment-derived
completions, falling back to the default-derived ones when the comment scan
yields nothing (Python tests falsiness, so an empty set also falls back). -/
def valueCompletionsFor (dec : PyStr → Option JValue)
    (intP : PyStr → Option Int) (floatP : PyStr → Option PyStr)
    (colorComps themeComps : List JValue) (ks : KS) (key : PyStr) :
    Option (List JValue) :=
  if key = csKey then some colorComps
  else if key = themeKey then some themeComps
  else
    match completionsFromComment dec intP floatP ks.comments key with
    | none => completionsFromDefault ks.defaults key
    | some [] => completionsFromDefault ks.defaults key
    | some l => some l

/-! ## The scope-name trie and `_complete_scope` / `_complete_base_scope` -/

/-- Modelled from the spec: the scope-naming-convention trie node built by
the (not included) `scope_data` module — a name segment with an ordered list
of children, looked up by exact segment match.  `COMPILED_HEADS` is the list
of top-level nodes. -/
inductive SNode where
  | mk (nm : PyStr) (children : List SNode)

/-- The node's name segment. -/
def SNode.nm : SNode → PyStr
  | .mk n _ => n

/-- The node's ordered children. -/
def SNode.children : SNode → List SNode
  | .mk _ c => c

/-- Modelled from the spec: `nodes.find(token)` — the child whose name
segment equals the token exactly. -/
def findNode (ns : List SNode) (t : PyStr) : Option SNode :=
  ns.find? (fun n => n.nm = t)

/-- Modelled from the spec: `nodes.to_completion()` — offer the nodes (their
name segments) as completions. -/
def toCompletion (ns : List SNode) : List PyStr :=
  ns.map SNode.nm

/-- Status message `` "`%s` not found in scope naming conventions" ``. -/
def msgNotFound (toks : List PyStr) : PyStr :=
  [btChar] ++ joinDot toks ++ [btChar] ++
    " not found in scope naming conventions".toList

/-- Status message `` "No nodes available in scope naming conventions after `%s`" ``. -/
def msgNoNodes (toks : List PyStr) : PyStr :=
  "No nodes available in scope naming conventions after ".toList ++
    [btChar] ++ joinDot toks ++ [btChar]

/-- The `for i, token in enumerate(tokens[:-1])` walk of `_complete_scope`:
`consumed` are the already matched tokens (for the first status message),
`allButLast` is the full `tokens[:-1]` (for the second).  Returns the final
node list of the `for`-`else` branch, or `none` with the emitted status
message when the loop `break`s. -/
def walkScope (nodes : List SNode) (consumed allButLast : List PyStr) :
    List PyStr → Option (List SNode) × List PyStr
  | [] => (some nodes, [])
  | t :: ts =>
    match findNode nodes t with
    | none => (none, [msgNotFound (consumed ++ [t])])
    | some n =>
      if n.children.isEmpty then (none, [msgNoNodes allButLast])
      else walkScope n.children (consumed ++ [t]) allButLast ts

/-- The pure descent of the walk, without the message bookkeeping: the node
list reached after matching every token to a child with children, or `none`
when the descent breaks.  Used to state where the walk stops. -/
def chainNodes (nodes : List SNode) : List PyStr → Option (List SNode)
  | [] => some nodes
  | t :: ts =>
    match findNode nodes t with
    | none => none
    | some n => if n.children.isEmpty then none else chainNodes n.children ts

/-- The outcome of `_complete_scope`: offered completions and emitted status
messages. -/
structure ScopeOut where
  comps : List PyStr
  msgs : List PyStr
deriving DecidableEq

/-- Model of `SyntaxDefCompletionsListener._complete_scope` for a single cursor:
split the typed selector on dots; with at most one token offer the heads;
otherwise walk `tokens[:-1]` through the trie and, in the `for`-`else`
branch, offer the reached children plus the base-scope completion — after a
`break`, only the base-scope completion.  `base` is
`_complete_base_scope(tokens[-1])`, abstracted to its completion list. -/
def completeScope (heads : List SNode) (base : PyStr → List PyStr)
    (realPfx : PyStr) : ScopeOut :=
  let tokens := pySplit '.' realPfx
  if tokens.length ≤ 1 then ⟨toCompletion heads, []⟩
  else
    let bsc := base (tokens.getLastD [])
    match walkScope heads [] tokens.dropLast tokens.dropLast with
    | (some nodes, msgs) => ⟨toCompletion nodes ++ bsc, msgs⟩
    | (none, msgs) => ⟨bsc, msgs⟩

/-- The outcome of `_complete_base_scope`: offered completions, the stored
`self.base_suffix`, and whether the non-unique-base-scope warning was
emitted. -/
structure BaseScopeOut where
  comps : List PyStr
  baseSuffix : Option PyStr
  warned : Bool
deriving DecidableEq

/-- Model of `SyntaxDefCompletionsListener._complete_base_scope`: `regions` are the
contents of the view regions matching the base-scope selector.  Unless there
is exactly one, warn and offer nothing; otherwise offer the last
dot-separated segment of the declared base scope, except when the typed last
token already equals it. -/
def completeBaseScope (regions : List PyStr) (lastToken : PyStr) : BaseScopeOut :=
  match regions with
  | [r] =>
    let sfx := rpartAfter '.' r
    if lastToken = sfx then ⟨[], none, false⟩
    else ⟨[sfx], some sfx, false⟩
  | _ => ⟨[], none, true⟩

/-! ## Helper definitions for the statements and proofs -/

/-- The (content, in-comment) projection of one scanner step: which lines are
retained as content depends only on these two components, not on the
harvested comments. -/
def stripStep (p : List PyStr × Bool) (line : PyStr) : List PyStr × Bool :=
  let stripped := pyStrip line
  if p.2 then (p.1, !pyEndsWith starSlash stripped)
  else if stripped.isEmpty then p
  else if pyStartsWith slashStar stripped then (p.1, true)
  else if pyStartsWith slashSlash stripped then p
  else (p.1 ++ [line], false)

/-- The comment-free content lines the parser retains from a resource. -/
def contentOf (lines : List PyStr) : List PyStr :=
  (parseMany (initPState []) lines).content

/-- A line that is neither blank nor starts a comment (after stripping). -/
def isContentLine (l : PyStr) : Bool :=
  !(pyStrip l).isEmpty &&
    !pyStartsWith slashStar (pyStrip l) &&
    !pyStartsWith slashSlash (pyStrip l)

/-- A `//` comment line. -/
def isSlashLine (l : PyStr) : Bool := pyStartsWith slashSlash (pyStrip l)

/-- The text a `//` comment line contributes to the pending comment block:
the stripped line minus the marker, unless it also ends with `//` (such
lines are treated as visual separators and skipped). -/
def slashContrib (l : PyStr) : Option PyStr :=
  let t := (pyStrip l).drop 2
  if t.isEmpty || !pyEndsWith slashSlash t then some t else none

/-- A scalar (non-container, non-null, non-boolean) JSON value: the residual
case of `_completions_from_default`'s type dispatch. -/
def isScalarJ : JValue → Bool
  | .int _ => true
  | .float _ => true
  | .str _ => true
  | _ => false

/-- A small concrete trie instance for evaluating the scope walk: a single
head `comment` with children `line` and `block`. -/
def demoHeads : List SNode :=
  [SNode.mk "comment".toList
    [SNode.mk "line".toList [], SNode.mk "block".toList []]]

/-! ## Theorems -/

/-- A completed descent makes the walk finish in the `for`-`else` branch
with those nodes and no status message. -/
theorem walkScope_success (toks : List PyStr) :
    ∀ (nodes : List SNode) (consumed abl : List PyStr) (ns : List SNode),
      chainNodes nodes toks = some ns →
      walkScope nodes consumed abl toks = (some ns, []) := by
  induction toks with
  | nil =>
    intro nodes consumed abl ns h
    simp [chainNodes] at h
    rw [walkScope, h]
  | cons t ts ih =>
    intro nodes consumed abl ns h
    rw [chainNodes] at h
    cases hf : findNode nodes t with
    | none => rw [hf] at h; simp at h
    | some n =>
      rw [hf] at h
      by_cases hc : n.children.isEmpty
      · simp [hc] at h
      · simp only [hc, if_false, Bool.false_eq_true] at h
        rw [walkScope, hf]
        simp only [hc, if_false, Bool.false_eq_true]
        exact ih _ _ _ _ h

/-- When the first unmatched token is `t`, after the tokens of `pre` all
matched nodes with children, the walk breaks with exactly one status
message naming the consumed tokens, the matched tokens and the unmatched
token — the dotted prefix up to and including the failing segment. -/
theorem walkScope_unmatched (pre : List PyStr) :
    ∀ (nodes : List SNode) (consumed abl : List PyStr) (t : PyStr)
      (post : List PyStr) (ns' : List SNode),
      chainNodes nodes pre = some ns' → findNode ns' t = none →
      walkScope nodes consumed abl (pre ++ t :: post) =
        (none, [msgNotFound (consumed ++ (pre ++ [t]))]) := by
  induction pre with
  | nil =>
    intro nodes consumed abl t post ns' hch hf
    simp [chainNodes] at hch
    subst hch
    rw [List.nil_append, walkScope, hf]
    simp
  | cons p pre' ih =>
    intro nodes consumed abl t post ns' hch hf
    rw [chainNodes] at hch
    cases hfp : findNode nodes p with
    | none => rw [hfp] at hch; simp at hch
    | some n =>
      rw [hfp] at hch
      by_cases hc : n.children.isEmpty
      · simp [hc] at hch
      · simp only [hc, if_false, Bool.false_eq_true] at hch
        have hstep : walkScope nodes consumed abl ((p :: pre') ++ t :: post) =
            walkScope n.children (consumed ++ [p]) abl (pre' ++ t :: post) := by
          rw [List.cons_append, walkScope, hfp]
          simp only [hc, if_false, Bool.false_eq_true]
        rw [hstep, ih _ _ _ _ _ _ hch hf]
        simp [List.append_assoc]

/-- When the first dead end is a matched node without children (reached
after the tokens of `pre`), the walk breaks with exactly one status message
naming `abl` — in `_complete_scope` this is all segments but the last,
regardless of where the dead end occurred. -/
theorem walkScope_childless (pre : List PyStr) :
    ∀ (nodes : List SNode) (consumed abl : List PyStr) (t : PyStr)
      (post : List PyStr) (ns' : List SNode) (n : SNode),
      chainNodes nodes pre = some ns' → findNode ns' t = some n →
      n.children = [] →
      walkScope nodes consumed abl (pre ++ t :: post) =
        (none, [msgNoNodes abl]) := by
  induction pre with
  | nil =>
    intro nodes consumed abl t post ns' n hch hf hn
    simp [chainNodes] at hch
    subst hch
    rw [List.nil_append, walkScope, hf]
    simp [hn]
  | cons p pre' ih =>
    intro nodes consumed abl t post ns' n hch hf hn
    rw [chainNodes] at hch
    cases hfp : findNode nodes p with
    | none => rw [hfp] at hch; simp at hch
    | some m =>
      rw [hfp] at hch
      by_cases hc : m.children.isEmpty
      · simp [hc] at hch
      · simp only [hc, if_false, Bool.false_eq_true] at hch
        have hstep : walkScope nodes consumed abl ((p :: pre') ++ t :: post) =
            walkScope m.children (consumed ++ [p]) abl (pre' ++ t :: post) := by
          rw [List.cons_append, walkScope, hfp]
          simp only [hc, if_false, Bool.false_eq_true]
        rw [hstep, ih _ _ _ _ _ _ _ hch hf hn]

/-- C5: the base-scope-suffix completion is offered iff the view has exactly
one base-scope region and the typed last token differs from the final
dot-separated segment of the declared base scope; with a non-unique region a
warning is emitted and no completion is produced. -/
theorem c5_base_scope_suffix (regions : List PyStr) (lastToken : PyStr) :
    ((completeBaseScope regions lastToken).comps ≠ [] ↔
      (∃ r, regions = [r] ∧ lastToken ≠ rpartAfter '.' r)) ∧
    (regions.length ≠ 1 →
      (completeBaseScope regions lastToken).warned = true ∧
      (completeBaseScope regions lastToken).comps = []) := by
  constructor
  · cases regions with
    | nil => simp [completeBaseScope]
    | cons r rs =>
      cases rs with
      | nil =>
        by_cases h : lastToken = rpartAfter '.' r <;>
          simp [completeBaseScope, h]
      | cons r2 rs2 => simp [completeBaseScope]
  · intro h
    cases regions with
    | nil => simp [completeBaseScope]
    | cons r rs =>
      cases rs with
      | nil => simp at h
      | cons r2 rs2 => simp [completeBaseScope]

/-- Witness for C5: with the unique base scope `source.python` and typed
token `py` the suffix `python` is offered; with no base-scope region at all
the warning fires and nothing is offered. -/
theorem c5_base_scope_suffix_witness :
    (completeBaseScope ["source.python".toList] "py".toList).comps ≠ [] ∧
    (completeBaseScope ([] : List PyStr) "py".toList).warned = true ∧
    (completeBaseScope ([] : List PyStr) "py".toList).comps = [] := by
  refine ⟨?_, ?_, ?_⟩
  · exact (c5_base_scope_suffix ["source.python".toList] "py".toList).1.2
      ⟨"source.python".toList, rfl, by decide⟩
  · exact ((c5_base_scope_suffix ([] : List PyStr) "py".toList).2 (by decide)).1
  · exact ((c5_base_scope_suffix ([] : List PyStr) "py".toList).2 (by decide)).2

/-- Counterexample to C2 as stated: for the prefix `comment.xyz.thing` over a
trie whose head `comment` has children `line` and `block`, the segment `xyz`
is unmatched; the deepest reached node is `comment`, whose children would
give the completions `line` and `block` — but the code offers only the
base-scope completion (empty here), while it does emit the status message
naming the unmatched dotted prefix. -/
theorem c2_scope_walk_counterexample :
    (completeScope demoHeads (fun _ => []) "comment.xyz.thing".toList).comps = [] ∧
    toCompletion (SNode.mk "comment".toList
      [SNode.mk "line".toList [], SNode.mk "block".toList []]).children =
      ["line".toList, "block".toList] ∧
    (completeScope demoHeads (fun _ => []) "comment.xyz.thing".toList).msgs =
      [msgNotFound ["comment".toList, "xyz".toList]] := by
  refine ⟨by decide, by decide, by decide⟩

/-- C2 (amended): for a dotted prefix with at least two segments the code
splits on `.` and walks the trie over all segments but the last.  When every
such segment matches a node with children, the reached node list's
completions plus the base-scope completion are offered with no status
message.  When some segment is unmatched, the walk stops, the status message
names the dotted prefix up to and including the unmatched segment, and only
the base-scope completion is offered — not the children of the deepest
reached node.  When instead a matched node has no children, the walk also
stops with only the base-scope completion, but the status message names all
segments except the last, which can extend past the dead end. -/
theorem c2_scope_walk_amended (heads : List SNode) (base : PyStr → List PyStr)
    (pfx : PyStr) (h2 : 2 ≤ (pySplit '.' pfx).length) :
    (∀ ns, chainNodes heads (pySplit '.' pfx).dropLast = some ns →
      completeScope heads base pfx =
        ⟨toCompletion ns ++ base ((pySplit '.' pfx).getLastD []), []⟩) ∧
    (∀ pre t post ns', (pySplit '.' pfx).dropLast = pre ++ t :: post →
      chainNodes heads pre = some ns' → findNode ns' t = none →
      completeScope heads base pfx =
        ⟨base ((pySplit '.' pfx).getLastD []), [msgNotFound (pre ++ [t])]⟩) ∧
    (∀ pre t post ns' n, (pySplit '.' pfx).dropLast = pre ++ t :: post →
      chainNodes heads pre = some ns' → findNode ns' t = some n →
      n.children = [] →
      completeScope heads base pfx =
        ⟨base ((pySplit '.' pfx).getLastD []),
          [msgNoNodes ((pySplit '.' pfx).dropLast)]⟩) := by
  have hlen : ¬ (pySplit '.' pfx).length ≤ 1 := by omega
  refine ⟨?_, ?_, ?_⟩
  · intro ns hch
    rw [completeScope]
    simp only [hlen, if_false]
    rw [walkScope_success _ _ _ _ _ hch]
  · intro pre t post ns' hbl hch hf
    rw [completeScope]
    simp only [hlen, if_false]
    rw [hbl, walkScope_unmatched _ _ _ _ _ _ _ hch hf]
    simp
  · intro pre t post ns' n hbl hch hf hn
    rw [completeScope]
    simp only [hlen, if_false]
    rw [hbl, walkScope_childless _ _ _ _ _ _ _ _ hch hf hn]

/-- Witness for C2 (amended): over the demo trie, the prefix
`comment.xyz.thing` breaks on the unmatched `xyz` and the message names
`comment.xyz`; the prefix `comment.line.x.y` dead-ends at the childless
`line` and the message names `comment.line.x`, extending past the dead
end — both offer only the base completion. -/
theorem c2_scope_walk_amended_witness :
    completeScope demoHeads (fun _ => ["sfx".toList]) "comment.xyz.thing".toList =
      ⟨["sfx".toList], [msgNotFound ["comment".toList, "xyz".toList]]⟩ ∧
    completeScope demoHeads (fun _ => ["sfx".toList]) "comment.line.x.y".toList =
      ⟨["sfx".toList],
        [msgNoNodes ["comment".toList, "line".toList, "x".toList]]⟩ := by
  constructor
  · have h := (c2_scope_walk_amended demoHeads (fun _ => ["sfx".toList])
      "comment.xyz.thing".toList (by decide)).2.1
      ["comment".toList] "xyz".toList []
      [SNode.mk "line".toList [], SNode.mk "block".toList []]
      (by decide) rfl rfl
    exact h
  · have h := (c2_scope_walk_amended demoHeads (fun _ => ["sfx".toList])
      "comment.line.x.y".toList (by decide)).2.2
      ["comment".toList] "line".toList ["x".toList]
      [SNode.mk "line".toList [], SNode.mk "block".toList []]
      (SNode.mk "line".toList [])
      (by decide) rfl rfl rfl
    exact h

/-- Which lines the scanner retains as content (and whether it is inside a
block comment) is a function of those two components alone: the pending
comment block and the harvested comments table do not influence it. -/
theorem parseLine_proj (st : PState) (l : PyStr) :
    ((parseLine st l).content, (parseLine st l).inComment) =
      stripStep (st.content, st.inComment) l := by
  by_cases h1 : st.inComment
  · by_cases h2 : pyEndsWith starSlash (pyStrip l) <;>
      by_cases h3 : pyStartsWith starSpace (pyStrip l) <;>
        simp [parseLine, stripStep, h1, h2, h3]
  · by_cases h4 : (pyStrip l).isEmpty
    · simp [parseLine, stripStep, h1, h4]
    · by_cases h5 : pyStartsWith slashStar (pyStrip l)
      · simp [parseLine, stripStep, h1, h4, h5]
      · by_cases h6 : pyStartsWith slashSlash (pyStrip l)
        · simp [parseLine, stripStep, h1, h4, h5, h6]
        · by_cases h7 : st.comment.isEmpty <;>
            cases hk : keyOfStripped (pyStrip l) <;>
              simp [parseLine, stripStep, h1, h4, h5, h6, h7, hk]

/-- The projection lemma for the whole loop. -/
theorem parseMany_proj (lines : List PyStr) : ∀ st : PState,
    ((parseMany st lines).content, (parseMany st lines).inComment) =
      lines.foldl stripStep (st.content, st.inComment) := by
  induction lines with
  | nil => intro st; rfl
  | cons l ls ih =>
    intro st
    have h1 : parseMany st (l :: ls) = parseMany (parseLine st l) ls := rfl
    have h2 : (l :: ls).foldl stripStep (st.content, st.inComment) =
        ls.foldl stripStep (stripStep (st.content, st.inComment) l) := rfl
    rw [h1, h2, ← parseLine_proj st l, ih]

/-- The retained content does not depend on the shared comments table the
parser state carries. -/
theorem parse_content_comments_free (lines : List PyStr)
    (cm cm' : List (PyStr × PyStr)) :
    (parseMany (initPState cm) lines).content =
      (parseMany (initPState cm') lines).content := by
  have h1 : (parseMany (initPState cm) lines).content =
      (lines.foldl stripStep ([], false)).1 :=
    congrArg Prod.fst (parseMany_proj lines (initPState cm))
  have h2 : (parseMany (initPState cm') lines).content =
      (lines.foldl stripStep ([], false)).1 :=
    congrArg Prod.fst (parseMany_proj lines (initPState cm'))
  rw [h1, h2]

/-- Folding the content projection over lines that are all plain content
lines appends them all and stays outside comments. -/
theorem stripStep_content_all (lines : List PyStr)
    (h : ∀ l ∈ lines, isContentLine l = true) :
    ∀ acc, lines.foldl stripStep (acc, false) = (acc ++ lines, false) := by
  induction lines with
  | nil => intro acc; simp
  | cons l ls ih =>
    intro acc
    have hl := h l (by simp)
    simp only [isContentLine, Bool.and_eq_true, Bool.not_eq_true',
      Bool.not_eq_eq_eq_not, Bool.not_true] at hl
    have hs : stripStep (acc, false) l = (acc ++ [l], false) := by
      simp [stripStep, hl.1.1, hl.1.2, hl.2]
    rw [List.foldl_cons, hs, ih (fun x hm => h x (by simp [hm])) (acc ++ [l])]
    simp

/-- C8: on input with no comment lines and no blank lines the scanner
retains exactly the input lines, so a second pass over its own output is the
identity. -/
theorem c8_strip_idempotent (lines : List PyStr)
    (h : ∀ l ∈ lines, isContentLine l = true) :
    contentOf lines = lines ∧ contentOf (contentOf lines) = contentOf lines := by
  have hc : contentOf lines = lines := by
    have hp : (parseMany (initPState []) lines).content =
        (lines.foldl stripStep ([], false)).1 :=
      congrArg Prod.fst (parseMany_proj lines (initPState []))
    show (parseMany (initPState []) lines).content = lines
    rw [hp, stripStep_content_all lines h []]
    rfl
  refine ⟨hc, ?_⟩
  rw [hc]
  exact hc

/-- Witness for C8: two plain settings lines survive both passes unchanged. -/
theorem c8_strip_idempotent_witness :
    contentOf ["\x22a\x22: 1,".toList, "\x22b\x22: 2".toList] =
      ["\x22a\x22: 1,".toList, "\x22b\x22: 2".toList] := by
  exact (c8_strip_idempotent ["\x22a\x22: 1,".toList, "\x22b\x22: 2".toList]
    (by decide)).1

/-- The operation `optOr` is associative. -/
theorem optOr_assoc {α : Type} (a b c : Option α) :
    optOr (optOr a b) c = optOr a (optOr b c) := by
  cases a <;> rfl

/-- The operation `optOr` with an empty second branch. -/
theorem optOr_none_right {α : Type} (a : Option α) : optOr a none = a := by
  cases a <;> rfl

/-- Lookup in a consed association list. -/
theorem lookupA_cons {β : Type} (k' : PyStr) (v : β) (l : List (PyStr × β))
    (k : PyStr) :
    lookupA ((k', v) :: l) k = if k' = k then some v else lookupA l k := by
  by_cases h : k' = k <;> simp [lookupA, List.find?_cons, h]

/-- Lookup in an appended association list: the first occurrence wins. -/
theorem lookupA_append {β : Type} (a b : List (PyStr × β)) (k : PyStr) :
    lookupA (a ++ b) k = optOr (lookupA a k) (lookupA b k) := by
  induction a with
  | nil => simp [lookupA, optOr]
  | cons p a ih =>
    obtain ⟨k', v⟩ := p
    by_cases h : k' = k
    · simp [List.cons_append, lookupA_cons, h, optOr]
    · simp [List.cons_append, lookupA_cons, h, ih]

/-- Lookup after `setdefault` looks like appending a one-element table. -/
theorem lookupA_setdefault (d : List (PyStr × JValue)) (k' : PyStr) (v : JValue)
    (k : PyStr) :
    lookupA (setdefault d k' v) k = optOr (lookupA d k) (lookupA [(k', v)] k) := by
  rw [setdefault]
  by_cases hd : (lookupA d k').isSome
  · simp only [hd, if_true]
    by_cases hk : k' = k
    · subst hk
      cases h : lookupA d k' with
      | some w => simp [optOr, h]
      | none => rw [h] at hd; simp at hd
    · have h1 : lookupA [(k', v)] k = none := by
        rw [lookupA_cons]
        simp [hk, lookupA]
      rw [h1, optOr_none_right]
  · simp only [hd, if_false, Bool.false_eq_true]
    rw [lookupA_append]

/-- The merge loop is first-write-wins: looking up the merged table is the
existing binding, else the first binding among the new items. -/
theorem lookupA_mergeItems (items : List (PyStr × JValue)) :
    ∀ (d : List (PyStr × JValue)) (k : PyStr),
      lookupA (mergeItems d items) k = optOr (lookupA d k) (lookupA items k) := by
  induction items with
  | nil =>
    intro d k
    simp [mergeItems, lookupA, optOr_none_right]
  | cons kv items ih =>
    intro d k
    obtain ⟨k', v⟩ := kv
    have h1 : mergeItems d ((k', v) :: items) = mergeItems (setdefault d k' v) items := rfl
    have h3 : lookupA ((k', v) :: items) k = if k' = k then some v else lookupA items k :=
      lookupA_cons k' v items k
    rw [h1, ih, lookupA_setdefault, optOr_assoc, h3]
    by_cases h : k' = k
    · have h2 : lookupA [(k', v)] k = some v := by
        rw [lookupA_cons]; simp [h]
      rw [h2]
      simp [h, optOr]
    · have h2 : lookupA [(k', v)] k = none := by
        rw [lookupA_cons]; simp [h, lookupA]
      rw [h2]
      simp [h, optOr]

/-- What one loop iteration does to `defaults`: nothing for an ignored or
failing resource, a first-wins merge of its items otherwise. -/
theorem loadStep_defaults (loadRes : PyStr → Option (List PyStr))
    (decode : PyStr → Option (List (PyStr × JValue)))
    (p : KS × List PyStr) (r : PyStr) :
    (loadStep loadRes decode p r).1.defaults =
      (if anyIgnored r then p.1.defaults
       else
         match resourceItems loadRes decode r with
         | none => p.1.defaults
         | some items => mergeItems p.1.defaults items) := by
  rw [loadStep, resourceItems]
  by_cases hi : anyIgnored r
  · simp [hi]
  · simp only [hi, if_false, Bool.false_eq_true]
    cases hl : loadRes r with
    | none => simp
    | some lines =>
      simp only
      rw [parse_content_comments_free lines p.1.comments []]
      cases hd : decode (joinNL (parseMany (initPState []) lines).content) <;> simp

/-- Lookup after folding the resource loop from any starting state. -/
theorem foldl_loadStep_lookup (loadRes : PyStr → Option (List PyStr))
    (decode : PyStr → Option (List (PyStr × JValue)))
    (rs : List PyStr) :
    ∀ (ks : KS) (t : List PyStr) (k : PyStr),
      lookupA ((rs.foldl (loadStep loadRes decode) (ks, t)).1.defaults) k =
        optOr (lookupA ks.defaults k)
          (lookupA (successItems loadRes decode rs) k) := by
  induction rs with
  | nil =>
    intro ks t k
    simp [successItems, lookupA, optOr_none_right]
  | cons r rs ih =>
    intro ks t k
    rw [List.foldl_cons]
    have h : rs.foldl (loadStep loadRes decode) (loadStep loadRes decode (ks, t) r) =
        rs.foldl (loadStep loadRes decode)
          ((loadStep loadRes decode (ks, t) r).1, (loadStep loadRes decode (ks, t) r).2) := by
      simp
    rw [h, ih, loadStep_defaults]
    have hs : successItems loadRes decode (r :: rs) =
        (if anyIgnored r then [] else (resourceItems loadRes decode r).getD []) ++
          successItems loadRes decode rs := by
      simp [successItems]
    rw [hs, lookupA_append]
    by_cases hi : anyIgnored r
    · simp [hi, lookupA, optOr]
    · simp only [hi, if_false, Bool.false_eq_true]
      cases hri : resourceItems loadRes decode r with
      | none => simp [lookupA, optOr]
      | some items =>
        rw [lookupA_mergeItems, optOr_assoc]
        rfl

/-- C1: after the scan loop, each key's default is the value from the
earliest resource (in scan order) whose parsed items define it — a later
resource never overwrites an existing entry. -/
theorem c1_merge_first_wins (loadRes : PyStr → Option (List PyStr))
    (decode : PyStr → Option (List (PyStr × JValue)))
    (rs : List PyStr) (k : PyStr) :
    lookupA ((rs.foldl (loadStep loadRes decode) (emptyKS, [])).1.defaults) k =
      lookupA (successItems loadRes decode rs) k := by
  rw [foldl_loadStep_lookup]
  simp [emptyKS, lookupA, optOr]

/-- The `defaults` component of the fold only depends on the incoming
`defaults` (the comments table never feeds back into it). -/
theorem foldl_loadStep_defaults_congr (loadRes : PyStr → Option (List PyStr))
    (decode : PyStr → Option (List (PyStr × JValue)))
    (rs : List PyStr) :
    ∀ p q : KS × List PyStr, p.1.defaults = q.1.defaults →
      (rs.foldl (loadStep loadRes decode) p).1.defaults =
        (rs.foldl (loadStep loadRes decode) q).1.defaults := by
  induction rs with
  | nil => intro p q h; exact h
  | cons r rs ih =>
    intro p q h
    rw [List.foldl_cons, List.foldl_cons]
    apply ih
    rw [loadStep_defaults, loadStep_defaults, h]

/-- C3: a resource whose loading or parsing raises contributes nothing to
`defaults` and the scan continues over the remaining resources exactly as if
the failing resource were absent.  (In the model all steps are total
functions, so no exception can escape to the caller.) -/
theorem c3_failure_isolated (loadRes : PyStr → Option (List PyStr))
    (decode : PyStr → Option (List (PyStr × JValue)))
    (L1 L2 : List PyStr) (r : PyStr) (ks : KS) (t : List PyStr)
    (hfail : resourceItems loadRes decode r = none) :
    ((L1 ++ r :: L2).foldl (loadStep loadRes decode) (ks, t)).1.defaults =
      ((L1 ++ L2).foldl (loadStep loadRes decode) (ks, t)).1.defaults := by
  rw [List.foldl_append, List.foldl_append, List.foldl_cons]
  apply foldl_loadStep_defaults_congr
  rw [loadStep_defaults, hfail]
  by_cases hi : anyIgnored r <;> simp [hi]

/-- Witness for C3: with one resource whose load raises between two good
ones, the resulting defaults equal those of the two good resources alone. -/
theorem c3_failure_isolated_witness :
    (["Packages/A/F.sublime-settings".toList,
      "Packages/Bad/F.sublime-settings".toList,
      "Packages/B/F.sublime-settings".toList].foldl
        (loadStep
          (fun s => if s = "Packages/Bad/F.sublime-settings".toList then none
                    else some ["\x22a\x22: 1".toList])
          (fun _ => some [("a".toList, JValue.int 1)]))
        (emptyKS, [])).1.defaults =
    (["Packages/A/F.sublime-settings".toList,
      "Packages/B/F.sublime-settings".toList].foldl
        (loadStep
          (fun s => if s = "Packages/Bad/F.sublime-settings".toList then none
                    else some ["\x22a\x22: 1".toList])
          (fun _ => some [("a".toList, JValue.int 1)]))
        (emptyKS, [])).1.defaults := by
  exact c3_failure_isolated
    (fun s => if s = "Packages/Bad/F.sublime-settings".toList then none
              else some ["\x22a\x22: 1".toList])
    (fun _ => some [("a".toList, JValue.int 1)])
    ["Packages/A/F.sublime-settings".toList]
    ["Packages/B/F.sublime-settings".toList]
    "Packages/Bad/F.sublime-settings".toList
    emptyKS [] (by rw [resourceItems]; simp)

/-- C9: when the final JSON decode of a (non-ignored) resource raises, the
step keeps `defaults` untouched but commits the comments table exactly as
the parser left it — every comment harvested from that resource for a key
not yet present stays in `self.comments`. -/
theorem c9_comments_not_atomic (loadRes : PyStr → Option (List PyStr))
    (decode : PyStr → Option (List (PyStr × JValue)))
    (ks : KS) (t : List PyStr) (r : PyStr) (lines : List PyStr)
    (hni : anyIgnored r = false)
    (hld : loadRes r = some lines)
    (hdec : decode (joinNL (parseMany (initPState ks.comments) lines).content) = none) :
    loadStep loadRes decode (ks, t) r =
      (⟨ks.defaults, (parseMany (initPState ks.comments) lines).comments⟩, t ++ [r]) := by
  rw [loadStep]
  simp [hni, hld, hdec]

/-- Witness for C9: a resource with a harvested comment whose body fails to
decode leaves `defaults` empty but the comment for key `a` in the table. -/
theorem c9_comments_not_atomic_witness :
    (loadStep
      (fun s => if s = "Packages/X/F.sublime-settings".toList
                then some ["// note".toList, "\x22a\x22: bad".toList] else none)
      (fun _ => none)
      (emptyKS, []) "Packages/X/F.sublime-settings".toList).1.defaults = [] ∧
    (loadStep
      (fun s => if s = "Packages/X/F.sublime-settings".toList
                then some ["// note".toList, "\x22a\x22: bad".toList] else none)
      (fun _ => none)
      (emptyKS, []) "Packages/X/F.sublime-settings".toList).1.comments =
      [("a".toList, "note".toList)] := by
  have h := c9_comments_not_atomic
    (fun s => if s = "Packages/X/F.sublime-settings".toList
              then some ["// note".toList, "\x22a\x22: bad".toList] else none)
    (fun _ => none) emptyKS []
    "Packages/X/F.sublime-settings".toList
    ["// note".toList, "\x22a\x22: bad".toList]
    (by decide) (by simp) rfl
  rw [h]
  exact ⟨rfl, by decide⟩

/-- The trace of attempted resources accumulated by the loop is the input
list minus the ignored paths. -/
theorem foldl_loadStep_trace (loadRes : PyStr → Option (List PyStr))
    (decode : PyStr → Option (List (PyStr × JValue)))
    (rs : List PyStr) :
    ∀ p : KS × List PyStr,
      (rs.foldl (loadStep loadRes decode) p).2 =
        p.2 ++ rs.filter (fun r => !anyIgnored r) := by
  induction rs with
  | nil => intro p; simp
  | cons r rs ih =>
    intro p
    rw [List.foldl_cons, ih]
    by_cases hi : anyIgnored r
    · have ht : (loadStep loadRes decode p r).2 = p.2 := by
        rw [loadStep]; simp [hi]
      rw [ht, List.filter_cons]
      simp [hi]
    · have ht : (loadStep loadRes decode p r).2 = p.2 ++ [r] := by
        rw [loadStep]
        simp only [hi, if_false, Bool.false_eq_true]
        cases loadRes r with
        | none => simp
        | some lines =>
          simp only
          cases decode (joinNL (parseMany (initPState p.1.comments) lines).content) <;> simp
      rw [ht, List.filter_cons]
      simp [hi]

/-- C6: the set of resources the scan loop actually attempts to parse is
exactly the one the spec describes: all resources with the settings file
name, the `-hints` variant, plus (for a syntax-specific file) the general
preferences and their hints, minus every path containing `/User/` or
`/Preferences Editor/`. -/
theorem c6_scanned_resources (findRes : PyStr → List PyStr)
    (loadRes : PyStr → Option (List PyStr))
    (decode : PyStr → Option (List (PyStr × JValue)))
    (filename : PyStr) :
    (loadSettings findRes loadRes decode filename).2 =
      specScanList findRes filename := by
  rw [loadSettings, foldl_loadStep_trace]
  by_cases hsp : isSyntaxSpec findRes filename <;>
    simp [scanResources, specScanList, hsp, List.append_assoc]

/-- A line whose stripped form starts with `//` is nonempty and does not
start with `/*`. -/
theorem slash_line_shape (s : PyStr) (h : pyStartsWith slashSlash s = true) :
    s.isEmpty = false ∧ pyStartsWith slashStar s = false := by
  cases s with
  | nil => simp [pyStartsWith, slashSlash, List.isPrefixOf] at h
  | cons a s' =>
    cases s' with
    | nil => simp [pyStartsWith, slashSlash, List.isPrefixOf] at h
    | cons b s'' =>
      simp [pyStartsWith, slashSlash, List.isPrefixOf] at h
      obtain ⟨ha, hb⟩ := h
      subst ha; subst hb
      refine ⟨rfl, ?_⟩
      simp [pyStartsWith, slashStar, List.isPrefixOf]

/-- Processing a `//` comment line outside a block comment just extends the
pending comment block with the line's contribution. -/
theorem parseLine_slash (st : PState) (l : PyStr)
    (hs : isSlashLine l = true) (hic : st.inComment = false) :
    parseLine st l = { st with comment := st.comment ++ (slashContrib l).toList } := by
  rw [isSlashLine] at hs
  have hsh := slash_line_shape (pyStrip l) hs
  rw [parseLine, slashContrib]
  by_cases hcond : ((pyStrip l).drop 2).isEmpty || !pyEndsWith slashSlash ((pyStrip l).drop 2) <;>
    simp [hic, hsh.1, hsh.2, hs, hcond]

/-- Processing a whole block of `//` comment lines collects exactly their
contributions into the pending comment. -/
theorem parseMany_slash_block (block : List PyStr) :
    ∀ st : PState, (∀ l ∈ block, isSlashLine l = true) → st.inComment = false →
      parseMany st block =
        { st with comment := st.comment ++ block.filterMap slashContrib } := by
  induction block with
  | nil => intro st h hic; simp [parseMany]
  | cons l ls ih =>
    intro st h hic
    have h1 : parseMany st (l :: ls) = parseMany (parseLine st l) ls := rfl
    rw [h1, parseLine_slash st l (h l (by simp)) hic]
    rw [ih _ (fun x hx => h x (by simp [hx])) (by simp [hic])]
    cases hl : slashContrib l <;>
      simp [List.filterMap_cons, hl, List.append_assoc]

/-- One step `parseLine` either leaves the harvested comments unchanged or appends a
binding for a key that was absent. -/
theorem parseLine_comments_shape (st : PState) (l : PyStr) :
    (parseLine st l).comments = st.comments ∨
      ∃ key d, lookupA st.comments key = none ∧
        (parseLine st l).comments = st.comments ++ [(key, d)] := by
  rw [parseLine]
  by_cases h1 : st.inComment
  · by_cases h2 : pyEndsWith starSlash (pyStrip l) <;>
      by_cases h3 : pyStartsWith starSpace (pyStrip l) <;> simp [h1, h2, h3]
  · by_cases h4 : (pyStrip l).isEmpty
    · simp [h1, h4]
    · by_cases h5 : pyStartsWith slashStar (pyStrip l)
      · simp [h1, h4, h5]
      · by_cases h6 : pyStartsWith slashSlash (pyStrip l)
        · simp [h1, h4, h5, h6]
        · by_cases h7 : st.comment.isEmpty
          · simp [h1, h4, h5, h6, h7]
          · cases hk : keyOfStripped (pyStrip l) with
            | none => simp [h1, h4, h5, h6, h7, hk]
            | some key =>
              by_cases h8 : lookupA st.comments key = none
              · right
                exact ⟨key, dedentJoin st.comment, h8,
                  by simp [h1, h4, h5, h6, h7, hk, h8]⟩
              · left
                simp [h1, h4, h5, h6, h7, hk, h8]

/-- A stored comment is never overwritten by one scanner step. -/
theorem parseLine_comments_mono (st : PState) (l : PyStr) (k : PyStr) (v : PyStr)
    (h : lookupA st.comments k = some v) :
    lookupA (parseLine st l).comments k = some v := by
  rcases parseLine_comments_shape st l with hsh | ⟨key, d, hko, hsh⟩
  · rw [hsh]; exact h
  · rw [hsh, lookupA_append, h]; rfl

/-- A stored comment is never overwritten by the rest of the scan: only the
first comment for each key is kept. -/
theorem parseMany_comments_mono (lines : List PyStr) :
    ∀ (st : PState) (k : PyStr) (v : PyStr),
      lookupA st.comments k = some v →
        lookupA (parseMany st lines).comments k = some v := by
  induction lines with
  | nil => intro st k v h; exact h
  | cons l ls ih =>
    intro st k v h
    exact ih _ _ _ (parseLine_comments_mono st l k v h)

/-- Processing a content line that matches the key regex, with a nonempty
pending comment: the comment is associated to the matched key if that key
has no comment yet, and the pending block is cleared. -/
theorem parseLine_content_key (st : PState) (l : PyStr) (k : PyStr)
    (hic : st.inComment = false)
    (hcl : isContentLine l = true)
    (hk : keyOfStripped (pyStrip l) = some k)
    (hcm : st.comment.isEmpty = false) :
    parseLine st l = { st with
      content := st.content ++ [l],
      comment := [],
      comments := if lookupA st.comments k = none
                  then st.comments ++ [(k, dedentJoin st.comment)]
                  else st.comments } := by
  simp only [isContentLine, Bool.and_eq_true, Bool.not_eq_true'] at hcl
  rw [parseLine]
  by_cases h8 : lookupA st.comments k = none <;>
    simp [hic, hcl.1.1, hcl.1.2, hcl.2, hcm, hk, h8]

/-- C7: the comment block collected from the `//` lines immediately
preceding a content line is associated with the key the anchored regex
matches on that line; the stored text is the dedented join of the collected
lines, and only the first comment encountered for a key survives the whole
scan. -/
theorem c7_comment_association (comments0 : List (PyStr × PyStr))
    (content0 : List PyStr) (block : List PyStr) (keyLine : PyStr)
    (rest : List PyStr) (k : PyStr)
    (hb : ∀ l ∈ block, isSlashLine l = true)
    (hcl : isContentLine keyLine = true)
    (hk : keyOfStripped (pyStrip keyLine) = some k)
    (hne : (block.filterMap slashContrib).isEmpty = false) :
    lookupA (parseMany ⟨content0, [], false, comments0⟩
        (block ++ keyLine :: rest)).comments k =
      optOr (lookupA comments0 k)
        (some (dedentJoin (block.filterMap slashContrib))) := by
  have h1 : parseMany ⟨content0, [], false, comments0⟩ (block ++ keyLine :: rest) =
      parseMany (parseMany ⟨content0, [], false, comments0⟩ block) (keyLine :: rest) := by
    simp [parseMany, List.foldl_append]
  rw [h1, parseMany_slash_block block _ hb rfl]
  have h2 : parseMany
      ({ (⟨content0, [], false, comments0⟩ : PState) with
          comment := [] ++ block.filterMap slashContrib }) (keyLine :: rest) =
      parseMany (parseLine
        ⟨content0, block.filterMap slashContrib, false, comments0⟩ keyLine) rest := by
    rfl
  rw [h2, parseLine_content_key _ _ k rfl hcl hk hne]
  cases hc0 : lookupA comments0 k with
  | none =>
    apply parseMany_comments_mono
    simp only [hc0, if_true]
    rw [lookupA_append, hc0]
    have : lookupA [(k, dedentJoin (block.filterMap slashContrib))] k =
        some (dedentJoin (block.filterMap slashContrib)) := by
      rw [lookupA_cons]; simp
    rw [this]
    rfl
  | some v =>
    have : optOr (some v) (some (dedentJoin (block.filterMap slashContrib))) = some v := rfl
    rw [this]
    apply parseMany_comments_mono
    simp [hc0]

/-- Witness for C7: a single `//` line before a key line stores the dedented
comment for that key. -/
theorem c7_comment_association_witness :
    lookupA (parseMany ⟨[], [], false, []⟩
        (["// use \x22x\x22".toList] ++ "\x22k\x22: 1,".toList :: [])).comments
        "k".toList =
      some "use \x22x\x22".toList := by
  have h := c7_comment_association [] [] ["// use \x22x\x22".toList]
    "\x22k\x22: 1,".toList [] "k".toList
    (by decide) (by decide) (by decide) (by decide)
  rw [h]
  decide

/-- C4: for keys other than `color_scheme` and `theme`, value completions
come from scanning the key's comment (backtick-quoted JSON snippets and
double-quoted bare tokens); only when that scan yields nothing do they fall
back to the default's shape — a boolean default suggests `false` and `true`,
a list default suggests its members, any other non-null scalar default
suggests itself. -/
theorem c4_value_completion_sources (dec : PyStr → Option JValue)
    (intP : PyStr → Option Int) (floatP : PyStr → Option PyStr)
    (colorComps themeComps : List JValue) (ks : KS) (key : PyStr)
    (h1 : key ≠ csKey) (h2 : key ≠ themeKey) :
    (∀ l, completionsFromComment dec intP floatP ks.comments key = some l →
      l ≠ [] →
      valueCompletionsFor dec intP floatP colorComps themeComps ks key = some l) ∧
    ((completionsFromComment dec intP floatP ks.comments key = none ∨
      completionsFromComment dec intP floatP ks.comments key = some []) →
      ((∀ b, lookupA ks.defaults key = some (JValue.bool b) →
          valueCompletionsFor dec intP floatP colorComps themeComps ks key =
            some [JValue.bool false, JValue.bool true]) ∧
       (∀ xs, lookupA ks.defaults key = some (JValue.list xs) →
          valueCompletionsFor dec intP floatP colorComps themeComps ks key =
            some xs) ∧
       (∀ v, lookupA ks.defaults key = some v → isScalarJ v = true →
          valueCompletionsFor dec intP floatP colorComps themeComps ks key =
            some [v]))) := by
  constructor
  · intro l hcc hlne
    cases l with
    | nil => exact absurd rfl hlne
    | cons x xs =>
      rw [valueCompletionsFor]
      simp [h1, h2, hcc]
  · intro hempty
    have hfall : valueCompletionsFor dec intP floatP colorComps themeComps ks key =
        completionsFromDefault ks.defaults key := by
      rw [valueCompletionsFor]
      rcases hempty with he | he <;> simp [h1, h2, he]
    refine ⟨?_, ?_, ?_⟩
    · intro b hb
      rw [hfall]
      simp [completionsFromDefault, hb]
    · intro xs hxs
      rw [hfall]
      simp [completionsFromDefault, hxs]
    · intro v hv hscal
      rw [hfall]
      cases v with
      | null => simp [isScalarJ] at hscal
      | bool b => simp [isScalarJ] at hscal
      | list xs => simp [isScalarJ] at hscal
      | obj kvs => simp [isScalarJ] at hscal
      | int n => simp [completionsFromDefault, hv]
      | float r => simp [completionsFromDefault, hv]
      | str s => simp [completionsFromDefault, hv]

/-- Witness for C4: a key with no comment and boolean default `true`
suggests exactly `false` and `true`. -/
theorem c4_value_completion_sources_witness :
    valueCompletionsFor (fun _ => none) (fun _ => none) (fun _ => none) [] []
      ⟨[("b".toList, JValue.bool true)], []⟩ "b".toList =
      some [JValue.bool false, JValue.bool true] := by
  have h := (c4_value_completion_sources (fun _ => none) (fun _ => none)
    (fun _ => none) [] [] ⟨[("b".toList, JValue.bool true)], []⟩ "b".toList
    (by decide) (by decide)).2 (Or.inl rfl)
  exact h.1 true rfl

/-- C10: `decode_value` returns `True` iff the lowercased string is
`"true"`, else `False` iff it is `"false"`, else the integer value when the
string parses as an int, else the float value when it parses as a float, and
raises `ValueError` exactly when none of these apply; consequently a
double-quoted comment token that is neither a boolean nor a number is
offered as a string completion through the caller's `ValueError` fallback. -/
theorem c10_decode_value (intP : PyStr → Option Int)
    (floatP : PyStr → Option PyStr) (s : PyStr) :
    (pyDecodeValue intP floatP s = some (JValue.bool true) ↔
      pyLower s = trueLit) ∧
    (pyDecodeValue intP floatP s = some (JValue.bool false) ↔
      pyLower s ≠ trueLit ∧ pyLower s = falseLit) ∧
    (∀ n, pyDecodeValue intP floatP s = some (JValue.int n) ↔
      pyLower s ≠ trueLit ∧ pyLower s ≠ falseLit ∧ intP s = some n) ∧
    (∀ f, pyDecodeValue intP floatP s = some (JValue.float f) ↔
      pyLower s ≠ trueLit ∧ pyLower s ≠ falseLit ∧ intP s = none ∧
        floatP s = some f) ∧
    (pyDecodeValue intP floatP s = none ↔
      pyLower s ≠ trueLit ∧ pyLower s ≠ falseLit ∧ intP s = none ∧
        floatP s = none) ∧
    (∀ comment cap, cap ∈ quotedMatches comment →
      pyDecodeValue intP floatP cap = none →
      JValue.str cap ∈ quotedValues intP floatP comment) := by
  have hq : ∀ comment cap, cap ∈ quotedMatches comment →
      pyDecodeValue intP floatP cap = none →
      JValue.str cap ∈ quotedValues intP floatP comment := by
    intro comment cap hmem hdec
    rw [quotedValues]
    exact List.mem_map.mpr ⟨cap, hmem, by rw [hdec]⟩
  have htf : trueLit ≠ falseLit := by decide
  have hfr : falseLit ≠ trueLit := by decide
  refine ⟨?_, ?_, ?_, ?_, ?_, hq⟩
  · by_cases ht : pyLower s = trueLit
    · simp [pyDecodeValue, ht]
    · by_cases hf : pyLower s = falseLit
      · simp [pyDecodeValue, ht, hf, hfr]
      · cases hi : intP s <;> cases hfl : floatP s <;>
          simp [pyDecodeValue, ht, hf, hi, hfl]
  · by_cases ht : pyLower s = trueLit
    · simp [pyDecodeValue, ht]
    · by_cases hf : pyLower s = falseLit
      · simp [pyDecodeValue, ht, hf, hfr]
      · cases hi : intP s <;> cases hfl : floatP s <;>
          simp [pyDecodeValue, ht, hf, hi, hfl]
  · intro n
    by_cases ht : pyLower s = trueLit
    · simp [pyDecodeValue, ht]
    · by_cases hf : pyLower s = falseLit
      · simp [pyDecodeValue, ht, hf, hfr]
      · cases hi : intP s <;> cases hfl : floatP s <;>
          simp [pyDecodeValue, ht, hf, hi, hfl]
  · intro f
    by_cases ht : pyLower s = trueLit
    · simp [pyDecodeValue, ht]
    · by_cases hf : pyLower s = falseLit
      · simp [pyDecodeValue, ht, hf, hfr]
      · cases hi : intP s <;> cases hfl : floatP s <;>
          simp [pyDecodeValue, ht, hf, hi, hfl]
  · by_cases ht : pyLower s = trueLit
    · simp [pyDecodeValue, ht]
    · by_cases hf : pyLower s = falseLit
      · simp [pyDecodeValue, ht, hf, hfr]
      · cases hi : intP s <;> cases hfl : floatP s <;>
          simp [pyDecodeValue, ht, hf, hi, hfl]

/-- Witness for C10: `"True"` decodes to the boolean, and the bare token
`auto` falls back to a string completion. -/
theorem c10_decode_value_witness :
    pyDecodeValue (fun _ => none) (fun _ => none) "True".toList =
      some (JValue.bool true) ∧
    JValue.str "auto".toList ∈
      quotedValues (fun _ => none) (fun _ => none)
        "use \x22auto\x22 here".toList := by
  constructor
  · exact ((c10_decode_value (fun _ => none) (fun _ => none) "True".toList).1).mpr
      (by decide)
  · exact (c10_decode_value (fun _ => none) (fun _ => none) []).2.2.2.2.2
      "use \x22auto\x22 here".toList "auto".toList (by decide) rfl
